import Mathlib

/-!
Shallow embedding of `mcsema/BC/DeadRegElimination.cpp`:
the register-layout table builder (`InitDeadRegisterEliminator`), the
pointer offset propagator (`GetOffsets` / `GetOffsetFromBasePtr`), the
block-local liveness and redundancy eliminator (`LocalOptimizeBlock`),
and the per-function pass driver (`OptimizeFunction`).

LLVM values and instructions are identified by natural-number ids.
An LLVM type is abstracted as its data-layout store size together with a
nominal tag, so that two distinct types may share a store size
(`getTypeStoreSize` equality vs. `getType()` pointer equality in the
source are modelled by `.size` equality vs. full `Ty` equality).
-/

namespace DeadRegElim

/-- An LLVM type: `size` is `DataLayout::getTypeStoreSize`, `tag`
distinguishes types of equal store size (type identity). -/
structure Ty where
  size : Nat
  tag : Nat
deriving DecidableEq, Repr

/-- The three per-byte layout tables built by `InitDeadRegisterEliminator`:
`gByteOffsetToRegOffset`, `gByteOffsetToBeginOffset`, `gByteOffsetToRegSize`. -/
structure Tables where
  regOf : List Nat
  beginOf : List Nat
  regSize : List Nat
deriving DecidableEq, Repr

/-- One field of `InitDeadRegisterEliminator`'s loop: for a field of store
size `s` at register index `regOff` starting at byte `total`, push `s`
entries into each table. -/
def buildTablesAux : List Nat → Nat → Nat → Tables
  | [], _, _ => ⟨[], [], []⟩
  | s :: rest, regOff, total =>
      let t := buildTablesAux rest (regOff + 1) (total + s)
      ⟨List.replicate s regOff ++ t.regOf,
       List.replicate s total ++ t.beginOf,
       List.replicate s s ++ t.regSize⟩

/-- Model of `InitDeadRegisterEliminator`: build the three per-byte tables from the
ordered list of field store sizes of the register state structure. -/
def buildTables (fields : List Nat) : Tables :=
  buildTablesAux fields 0 0

/-! ## Pointer offset propagation (`GetOffsets`) -/

/-- The instruction shapes `GetOffsets` inspects.  `defId` is the id of the
value the instruction defines.  For `gep`, `disp` is the result of
`GetOffsetFromBasePtr` / `accumulateConstantOffset`: `some d` when the index
expression reduces to a constant byte displacement `d`, `none` when it
fails; this is a property of the instruction's operands and does not change
across iterations. -/
inductive OInst
  | gep (v : Nat) (base : Nat) (disp : Option Nat)
  | cast (v : Nat) (base : Nat)
  | load (v : Nat) (ptr : Nat)
  | store (v : Nat) (ptr : Nat)
  | phi (v : Nat) (isPtr : Bool) (incoming : List Nat)
  | otherI (v : Nat)
deriving DecidableEq, Repr

/-- The value id an instruction defines. -/
def OInst.defId : OInst → Nat
  | .gep v _ _ => v
  | .cast v _ => v
  | .load v _ => v
  | .store v _ => v
  | .phi v _ _ => v
  | .otherI v => v

/-- The `OffsetMap`, keyed by value id.  Entries are only ever appended, so
the association list records insertion order. -/
abbrev OffMap := List (Nat × Nat)

/-- Lookup, i.e. `offset.count(v)` / `offset[v]`. -/
def olookup (m : OffMap) (v : Nat) : Option Nat :=
  (m.find? (fun p => p.1 == v)).map Prod.snd

/-- The body of `GetOffsets`' inner loop for one instruction. -/
def stepOff (m : OffMap) (i : OInst) : OffMap :=
  if (olookup m i.defId).isSome then m
  else
    match i with
    | .gep v base disp =>
        match olookup m base, disp with
        | some b, some d => m ++ [(v, d + b)]
        | _, _ => m
    | .cast v base =>
        match olookup m base with
        | some b => m ++ [(v, b)]
        | none => m
    | .load v ptr =>
        match olookup m ptr with
        | some b => m ++ [(v, b)]
        | none => m
    | .store v ptr =>
        match olookup m ptr with
        | some b => m ++ [(v, b)]
        | none => m
    | .phi v isPtr incoming =>
        if isPtr then
          match incoming.findSome? (olookup m) with
          | some b => m ++ [(v, b)]
          | none => m
        else m
    | .otherI _ => m

/-- One full pass over every instruction of every block, in program order. -/
def onePass (insts : List OInst) (m : OffMap) : OffMap :=
  insts.foldl stepOff m

/-- The `made_progress` loop, with explicit fuel: stop as soon as a pass
makes no new assignment. -/
def iterFix (insts : List OInst) : Nat → OffMap → OffMap
  | 0, m => m
  | fuel + 1, m =>
      let m' := onePass insts m
      if m' = m then m else iterFix insts fuel m'

/-- Model of `GetOffsets`: seed the map with the state-pointer argument at offset 0
and iterate to the fixed point (fuel `insts.length + 1` suffices, as proved
below). -/
def getOffsets (argId : Nat) (insts : List OInst) : OffMap :=
  iterFix insts (insts.length + 1) [(argId, 0)]

/-- Plain `k`-fold application of `onePass`, used to state that re-running
propagation never changes established offsets. -/
def applyPasses (insts : List OInst) : Nat → OffMap → OffMap
  | 0, m => m
  | k + 1, m => applyPasses insts k (onePass insts m)

/-! ## Block-local eliminator (`LocalOptimizeBlock`) -/

/-- A block instruction as seen by `LocalOptimizeBlock`.  `off` is the
result of the offset-map lookup (`map.count(inst)` / `map[inst]`), carried
on the instruction: `none` means the instruction is not in the map.  For a
store, `val` is the id of the stored value (operand 0) and `ty` its type;
for a load, `ty` is the load's result type.  Call instructions are never in
the offset map (no branch of `GetOffsets` assigns one).  `mappedO` is a
mapped instruction that is neither a load, a store, nor a call — a GEP,
bitcast or phi, which make up most of the offset map's entries: the scan
still indexes both layout tables with its offset (the lookups at the top of
the loop body happen for every mapped instruction, before the load/store
dispatch) but neither `dyn_cast` succeeds, so the scan state is unchanged. -/
inductive BInst
  | load (id : Nat) (off : Option Nat) (ty : Ty)
  | store (id : Nat) (off : Option Nat) (ty : Ty) (val : Nat)
  | call (id : Nat)
  | otherB (id : Nat)
  | mappedO (id : Nat) (off : Nat)
deriving DecidableEq, Repr

/-- The id of the instruction. -/
def BInst.instId : BInst → Nat
  | .load i _ _ => i
  | .store i _ _ _ => i
  | .call i => i
  | .otherB i => i
  | .mappedO i _ => i

/-- Test for `llvm::isa<llvm::CallInst>(inst)`. -/
def BInst.isCall : BInst → Bool
  | .call _ => true
  | _ => false

/-- A load or store that is present in the offset map. -/
def BInst.isMappedAccess : BInst → Bool
  | .load _ (some _) _ => true
  | .store _ (some _) _ _ => true
  | _ => false

/-- The persisted `BlockState`: `live_on_entry` and `killed_in_block`.
The source's `RegSet` (`std::bitset<128>`) is modelled as a set of register
ids; the 128-capacity precondition is treated separately by the checked
eliminator below. -/
structure BlockState where
  live_on_entry : Finset Nat
  killed_in_block : Finset Nat
deriving DecidableEq

/-- The full scan state of `LocalOptimizeBlock`'s reverse traversal:
the `BlockState` under construction, the transient `local_dead` set and
`load_forwarding` map (register id to pending load id and type), and the
accumulated rewrites: `to_remove` (ids inserted into the removal set, in
insertion order) and `substs` (the `replaceAllUsesWith` calls performed,
as pairs of replaced load id and replacement value id). -/
structure ScanAcc where
  state : BlockState
  local_dead : Finset Nat
  load_forwarding : Nat → Option (Nat × Ty)
  to_remove : List Nat
  substs : List (Nat × Nat)

/-- The scan state at the top of `LocalOptimizeBlock`. -/
def initAcc : ScanAcc :=
  ⟨⟨∅, ∅⟩, ∅, fun _ => none, [], []⟩

/-- Indexing (`operator[]`) on a layout table (total model of the unchecked vector
indexing; the bounds precondition is treated by the checked eliminator). -/
def tbl (l : List Nat) (o : Nat) : Nat :=
  l.getD o 0

/-- One iteration of `LocalOptimizeBlock`'s reverse loop. -/
def processInst (T : Tables) (a : ScanAcc) : BInst → ScanAcc
  | .call _ =>
      -- conservative reset on a call; a call is not in the offset map, so
      -- the loop then continues to the next instruction
      { a with state := ⟨∅, ∅⟩, local_dead := ∅, load_forwarding := fun _ => none }
  | .otherB _ => a
  | .load _ none _ => a
  | .store _ none _ _ => a
  | .mappedO _ _ =>
      -- the loop body reads both tables at the instruction's offset, but a
      -- mapped GEP/bitcast/phi matches neither `dyn_cast`, so nothing in
      -- the scan state changes
      a
  | .load id (some o) ty =>
      let reg := tbl T.regOf o
      let a1 :=
        match a.load_forwarding reg with
        | some p =>
            -- load-to-load forwarding: replace the pending (program-order
            -- later) load with this one and mark it for removal
            if p.2 = ty then
              { a with to_remove := a.to_remove ++ [p.1],
                       substs := a.substs ++ [(p.1, id)] }
            else a
        | none => a
      { a1 with
        state := ⟨insert reg a1.state.live_on_entry, a1.state.killed_in_block⟩,
        local_dead := a1.local_dead.erase reg,
        load_forwarding := fun r => if r = reg then some (id, ty) else a1.load_forwarding r }
  | .store id (some o) ty v =>
      let reg := tbl T.regOf o
      let regSize := tbl T.regSize o
      let a1 :=
        if reg ∈ a.local_dead then
          -- dead store elimination
          { a with to_remove := a.to_remove ++ [id] }
        else if ty.size ≠ regSize then
          -- partial store revives the register
          { a with
            state := ⟨insert reg a.state.live_on_entry, a.state.killed_in_block⟩,
            local_dead := a.local_dead.erase reg }
        else
          -- full store kills the register; store-to-load forwarding
          let a2 :=
            match a.load_forwarding reg with
            | some p =>
                if p.2 = ty then
                  { a with to_remove := a.to_remove ++ [p.1],
                           substs := a.substs ++ [(p.1, v)] }
                else a
            | none => a
          { a2 with
            state := ⟨a2.state.live_on_entry.erase reg,
                      insert reg a2.state.killed_in_block⟩,
            local_dead := insert reg a2.local_dead }
      -- `next_load = nullptr` on every store path
      { a1 with load_forwarding := fun r => if r = reg then none else a1.load_forwarding r }

/-- Model of `LocalOptimizeBlock`: reverse traversal (`rbegin` to `rend`) of the
block from the empty scan state.  The result carries the persisted
`BlockState` and the rewrite decisions. -/
def processBlock (T : Tables) (insts : List BInst) : ScanAcc :=
  insts.reverse.foldl (processInst T) initAcc

/-! ## Checked eliminator

`LocalOptimizeBlock` indexes `gByteOffsetToRegOffset` and
`gByteOffsetToRegSize` with the offset of EVERY mapped instruction (the
lookups precede the load/store dispatch, so mapped GEPs, bitcasts and phis
incur them too), and uses the resulting register number in
`std::bitset<128>` operations for mapped loads and stores, with no bounds
check anywhere; the third table, `gByteOffsetToBeginOffset`, is built but
never read here.  The checked variant makes every such access explicit:
table lookups via `getElem?` and a `reg < 128` test guarding the bit-set
operations; it returns `none` exactly when an access is out of range. -/

/-- Guarded variant of one loop iteration. -/
def processInstC (T : Tables) (a : ScanAcc) : BInst → Option ScanAcc
  | .call _ =>
      some { a with state := ⟨∅, ∅⟩, local_dead := ∅, load_forwarding := fun _ => none }
  | .otherB _ => some a
  | .load _ none _ => some a
  | .store _ none _ _ => some a
  | .mappedO _ o =>
      -- a mapped GEP/bitcast/phi still incurs both table reads at its
      -- offset; no bit-set operation follows, so no 128 test is needed
      match T.regOf[o]?, T.regSize[o]? with
      | some _, some _ => some a
      | _, _ => none
  | .load id (some o) ty =>
      match T.regOf[o]?, T.regSize[o]? with
      | some reg, some _ =>
          if reg < 128 then
            let a1 :=
              match a.load_forwarding reg with
              | some p =>
                  if p.2 = ty then
                    { a with to_remove := a.to_remove ++ [p.1],
                             substs := a.substs ++ [(p.1, id)] }
                  else a
              | none => a
            some { a1 with
              state := ⟨insert reg a1.state.live_on_entry, a1.state.killed_in_block⟩,
              local_dead := a1.local_dead.erase reg,
              load_forwarding := fun r => if r = reg then some (id, ty) else a1.load_forwarding r }
          else none
      | _, _ => none
  | .store id (some o) ty v =>
      match T.regOf[o]?, T.regSize[o]? with
      | some reg, some regSize =>
          if reg < 128 then
            let a1 :=
              if reg ∈ a.local_dead then
                { a with to_remove := a.to_remove ++ [id] }
              else if ty.size ≠ regSize then
                { a with
                  state := ⟨insert reg a.state.live_on_entry, a.state.killed_in_block⟩,
                  local_dead := a.local_dead.erase reg }
              else
                let a2 :=
                  match a.load_forwarding reg with
                  | some p =>
                      if p.2 = ty then
                        { a with to_remove := a.to_remove ++ [p.1],
                                 substs := a.substs ++ [(p.1, v)] }
                      else a
                  | none => a
                { a2 with
                  state := ⟨a2.state.live_on_entry.erase reg,
                            insert reg a2.state.killed_in_block⟩,
                  local_dead := insert reg a2.local_dead }
            some { a1 with load_forwarding := fun r => if r = reg then none else a1.load_forwarding r }
          else none
      | _, _ => none

/-- Guarded variant of `LocalOptimizeBlock`'s reverse traversal. -/
def processBlockC (T : Tables) (insts : List BInst) : Option ScanAcc :=
  insts.reverse.foldlM (processInstC T) initAcc

/-- Bool-valued bound on an instruction's mapped offset (used to state the
precondition of the checked eliminator). -/
def offInBounds (n : Nat) : BInst → Bool
  | .load _ (some o) _ => o < n
  | .store _ (some o) _ _ => o < n
  | .mappedO _ o => o < n
  | _ => true

/-! ## Observable semantics of a block

Used to exhibit concrete observable effects of the rewrites.  Memory is
the register state structure as a byte list; an environment maps value ids
to the byte lists they denote (a load's result value has the load's id).
Only state-structure accesses are modelled; calls and unmapped
instructions leave the state unchanged. -/

/-- Read `n` bytes starting at `off`. -/
def readBytes (mem : List Nat) (off n : Nat) : List Nat :=
  (List.range n).map fun i => mem.getD (off + i) 0

/-- Write the bytes `bs` starting at `off`. -/
def writeBytes : List Nat → Nat → List Nat → List Nat
  | mem, _, [] => mem
  | mem, off, b :: rest => writeBytes (mem.set off b) (off + 1) rest

/-- Value environment lookup. -/
def lookupEnv (env : List (Nat × List Nat)) (v : Nat) : List Nat :=
  ((env.find? (fun p => p.1 == v)).map Prod.snd).getD []

/-- Execute one instruction. -/
def execInst (s : List Nat × List (Nat × List Nat)) : BInst → List Nat × List (Nat × List Nat)
  | .load id (some o) ty => (s.1, (id, readBytes s.1 o ty.size) :: s.2)
  | .store _ (some o) ty v => (writeBytes s.1 o ((lookupEnv s.2 v).take ty.size), s.2)
  | _ => s

/-- Execute a block on an initial byte state, returning the final bytes of
the register state structure. -/
def execBlock (insts : List BInst) (mem : List Nat) : List Nat :=
  (insts.foldl execInst (mem, [])).1

/-- Apply the recorded `replaceAllUsesWith` substitutions to a value id. -/
def applySubst (S : List (Nat × Nat)) (v : Nat) : Nat :=
  ((S.find? (fun p => p.1 == v)).map Prod.snd).getD v

/-- Rewrite one instruction's operands. -/
def rewriteInst (S : List (Nat × Nat)) : BInst → BInst
  | .store id off ty v => .store id off ty (applySubst S v)
  | i => i

/-- The block after `LocalOptimizeBlock`'s rewrites: uses of removed loads
replaced, removed instructions erased. -/
def rewriteBlock (insts : List BInst) (R : List Nat) (S : List (Nat × Nat)) : List BInst :=
  (insts.filter (fun i => !(R.contains i.instId))).map (rewriteInst S)

/-! ## Pass driver (`OptimizeFunction`) -/

/-- The externally visible actions of `OptimizeFunction`, in execution
order.  `runPipeline` is the `doInitialization` / `run` /
`doFinalization` of the configured `FunctionPassManager`;
`computeOffsets` is the `GetOffsets` call; `optimizeBlock b` is the
`LocalOptimizeBlock` call on block `b`. -/
inductive DriverEvent
  | runPipeline
  | computeOffsets
  | optimizeBlock (b : Nat)
deriving DecidableEq, Repr

/-- Model of `OptimizeFunction` as its trace of collaborator invocations: the pass
manager is configured first but only executed after `GetOffsets` and the
per-block `LocalOptimizeBlock` loop. -/
def OptimizeFunction (blocks : List Nat) : List DriverEvent :=
  [DriverEvent.computeOffsets]
    ++ blocks.map DriverEvent.optimizeBlock
    ++ [DriverEvent.runPipeline]

/-! ## Lemmas about the reverse scan -/

/-- The fields `to_remove` and `substs` are write-only accumulators: one step from a
state with pre-existing accumulator contents appends the same deltas as
from an empty accumulator, and the scan state does not depend on them. -/
lemma processInst_acc (T : Tables) (a : ScanAcc) (R : List Nat)
    (S : List (Nat × Nat)) (i : BInst) :
    processInst T { a with to_remove := R ++ a.to_remove, substs := S ++ a.substs } i
      = { processInst T a i with
          to_remove := R ++ (processInst T a i).to_remove,
          substs := S ++ (processInst T a i).substs } := by
  cases i with
  | call c => rfl
  | otherB c => rfl
  | mappedO c o => rfl
  | load id off ty =>
    cases off with
    | none => rfl
    | some o =>
      simp only [processInst]
      cases h : a.load_forwarding (tbl T.regOf o) with
      | none => simp [h]
      | some p =>
        by_cases hty : p.2 = ty
        · simp [h, hty]
        · simp [h, hty]
  | store id off ty v =>
    cases off with
    | none => rfl
    | some o =>
      simp only [processInst]
      by_cases hd : (tbl T.regOf o) ∈ a.local_dead
      · simp [hd]
      · by_cases hsz : ty.size = tbl T.regSize o
        · cases h : a.load_forwarding (tbl T.regOf o) with
          | none => simp [hd, hsz, h]
          | some p =>
            by_cases hty : p.2 = ty
            · simp [hd, hsz, h, hty]
            · simp [hd, hsz, h, hty]
        · simp [hd, hsz]

/-- Accumulator separation over a whole traversal. -/
lemma foldl_acc (T : Tables) (l : List BInst) :
    ∀ (a : ScanAcc) (R : List Nat) (S : List (Nat × Nat)),
      l.foldl (processInst T) { a with to_remove := R ++ a.to_remove, substs := S ++ a.substs }
        = { l.foldl (processInst T) a with
            to_remove := R ++ (l.foldl (processInst T) a).to_remove,
            substs := S ++ (l.foldl (processInst T) a).substs } := by
  induction l with
  | nil => intro a R S; rfl
  | cons i l ih =>
    intro a R S
    simp only [List.foldl_cons]
    rw [processInst_acc]
    exact ih (processInst T a i) R S

/-- A call resets the scan state to the initial one, keeping only the
accumulated rewrite decisions. -/
lemma processInst_call (T : Tables) (a : ScanAcc) (c : Nat) :
    processInst T a (BInst.call c)
      = { initAcc with
          to_remove := a.to_remove ++ initAcc.to_remove,
          substs := a.substs ++ initAcc.substs } := by
  simp [processInst, initAcc]

/-- Splitting a block at a call: the scan state after the whole block is
the scan state of the prefix alone, and the rewrite decisions are those of
the suffix (processed first, in reverse) followed by those of the prefix. -/
lemma processBlock_call_split (T : Tables) (pre post : List BInst) (c : Nat) :
    processBlock T (pre ++ BInst.call c :: post)
      = { processBlock T pre with
          to_remove := (processBlock T post).to_remove ++ (processBlock T pre).to_remove,
          substs := (processBlock T post).substs ++ (processBlock T pre).substs } := by
  unfold processBlock
  rw [List.reverse_append, List.reverse_cons, List.foldl_append, List.foldl_append,
    List.foldl_cons, List.foldl_nil, processInst_call]
  exact foldl_acc T pre.reverse initAcc _ _

/-- Instructions that are neither calls nor mapped accesses are skipped by
the scan. -/
lemma processInst_skip (T : Tables) (a : ScanAcc) {i : BInst}
    (hc : i.isCall = false) (hm : i.isMappedAccess = false) :
    processInst T a i = a := by
  cases i with
  | call c => simp [BInst.isCall] at hc
  | otherB c => rfl
  | mappedO c o => rfl
  | load id off ty =>
    cases off with
    | none => rfl
    | some o => simp [BInst.isMappedAccess] at hm
  | store id off ty v =>
    cases off with
    | none => rfl
    | some o => simp [BInst.isMappedAccess] at hm

/-- A call-free traversal only depends on its mapped loads and stores. -/
lemma foldl_filter_mapped (T : Tables) (l : List BInst) :
    ∀ a : ScanAcc, (∀ i ∈ l, BInst.isCall i = false) →
      l.foldl (processInst T) a
        = (l.filter BInst.isMappedAccess).foldl (processInst T) a := by
  induction l with
  | nil => intro a _; rfl
  | cons i l ih =>
    intro a h
    by_cases hm : BInst.isMappedAccess i
    · rw [List.filter_cons_of_pos hm]
      simp only [List.foldl_cons]
      exact ih _ (fun j hj => h j (List.mem_cons_of_mem i hj))
    · rw [List.filter_cons_of_neg hm]
      simp only [List.foldl_cons]
      rw [processInst_skip T a (h i (List.mem_cons_self i l)) (Bool.not_eq_true _ ▸ hm)]
      exact ih a (fun j hj => h j (List.mem_cons_of_mem i hj))

/-- Dead-store branch: a store to a locally dead register is marked for
removal and leaves the liveness state untouched. -/
lemma processInst_store_dead (T : Tables) (a : ScanAcc) (id o : Nat) (ty : Ty)
    (v : Nat) (h : tbl T.regOf o ∈ a.local_dead) :
    processInst T a (BInst.store id (some o) ty v)
      = { a with
          to_remove := a.to_remove ++ [id],
          load_forwarding := fun r => if r = tbl T.regOf o then none else a.load_forwarding r } := by
  simp [processInst, h]

/-- Partial-store branch: a store of a size different from the register's
size, to a register not locally dead, revives the register. -/
lemma processInst_store_partialWrite (T : Tables) (a : ScanAcc) (id o : Nat) (ty : Ty)
    (v : Nat) (h1 : tbl T.regOf o ∉ a.local_dead) (h2 : ty.size ≠ tbl T.regSize o) :
    processInst T a (BInst.store id (some o) ty v)
      = { a with
          state := ⟨insert (tbl T.regOf o) a.state.live_on_entry, a.state.killed_in_block⟩,
          local_dead := a.local_dead.erase (tbl T.regOf o),
          load_forwarding := fun r => if r = tbl T.regOf o then none else a.load_forwarding r } := by
  simp [processInst, h1, h2]

/-- Full-store branch with no pending load: kills the register. -/
lemma processInst_store_full (T : Tables) (a : ScanAcc) (id o : Nat) (ty : Ty)
    (v : Nat) (h1 : tbl T.regOf o ∉ a.local_dead) (h2 : ty.size = tbl T.regSize o)
    (h3 : a.load_forwarding (tbl T.regOf o) = none) :
    processInst T a (BInst.store id (some o) ty v)
      = { a with
          state := ⟨a.state.live_on_entry.erase (tbl T.regOf o),
                    insert (tbl T.regOf o) a.state.killed_in_block⟩,
          local_dead := insert (tbl T.regOf o) a.local_dead,
          load_forwarding := fun r => if r = tbl T.regOf o then none else a.load_forwarding r } := by
  simp [processInst, h1, h2, h3]

/-- Load with no pending load: becomes the pending load and marks the
register live on entry. -/
lemma processInst_load_nopending (T : Tables) (a : ScanAcc) (id o : Nat) (ty : Ty)
    (h : a.load_forwarding (tbl T.regOf o) = none) :
    processInst T a (BInst.load id (some o) ty)
      = { a with
          state := ⟨insert (tbl T.regOf o) a.state.live_on_entry, a.state.killed_in_block⟩,
          local_dead := a.local_dead.erase (tbl T.regOf o),
          load_forwarding := fun r => if r = tbl T.regOf o then some (id, ty) else a.load_forwarding r } := by
  simp [processInst, h]

/-- Load with a pending load of identical type: the pending (program-order
later) load is rewritten to this load's result and marked for removal. -/
lemma processInst_load_pending (T : Tables) (a : ScanAcc) (id o : Nat) (ty : Ty)
    (pid : Nat) (h : a.load_forwarding (tbl T.regOf o) = some (pid, ty)) :
    processInst T a (BInst.load id (some o) ty)
      = { a with
          to_remove := a.to_remove ++ [pid],
          substs := a.substs ++ [(pid, id)],
          state := ⟨insert (tbl T.regOf o) a.state.live_on_entry, a.state.killed_in_block⟩,
          local_dead := a.local_dead.erase (tbl T.regOf o),
          load_forwarding := fun r => if r = tbl T.regOf o then some (id, ty) else a.load_forwarding r } := by
  simp [processInst, h]

/-! ## Claim C1 -/

/-- C1: load-to-load forwarding is keyed by register id only, so two
same-type loads at DIFFERENT byte offsets (0 and 4) inside the same
8-byte register are forwarded to each other; replacing the forwarded
load's uses with its forwarding source and removing it changes the
block's externally observable register-state effects: the final bytes
stored to the second register differ between the original block and the
rewritten block (the claim's property fails on the code). -/
theorem c1_forwarding_ignores_byte_offsets :
    (tbl (buildTables [8, 4]).regOf 0 = tbl (buildTables [8, 4]).regOf 4
      ∧ (0 : Nat) ≠ 4)
    ∧ (processBlock (buildTables [8, 4])
        [BInst.load 1 (some 0) ⟨4, 0⟩, BInst.load 2 (some 4) ⟨4, 0⟩,
          BInst.store 3 (some 8) ⟨4, 0⟩ 2]).to_remove = [2]
    ∧ (processBlock (buildTables [8, 4])
        [BInst.load 1 (some 0) ⟨4, 0⟩, BInst.load 2 (some 4) ⟨4, 0⟩,
          BInst.store 3 (some 8) ⟨4, 0⟩ 2]).substs = [(2, 1)]
    ∧ execBlock
        [BInst.load 1 (some 0) ⟨4, 0⟩, BInst.load 2 (some 4) ⟨4, 0⟩,
          BInst.store 3 (some 8) ⟨4, 0⟩ 2]
        [0, 1, 2, 3, 4, 5, 6, 7, 0, 0, 0, 0]
      ≠ execBlock
          (rewriteBlock
            [BInst.load 1 (some 0) ⟨4, 0⟩, BInst.load 2 (some 4) ⟨4, 0⟩,
              BInst.store 3 (some 8) ⟨4, 0⟩ 2]
            (processBlock (buildTables [8, 4])
              [BInst.load 1 (some 0) ⟨4, 0⟩, BInst.load 2 (some 4) ⟨4, 0⟩,
                BInst.store 3 (some 8) ⟨4, 0⟩ 2]).to_remove
            (processBlock (buildTables [8, 4])
              [BInst.load 1 (some 0) ⟨4, 0⟩, BInst.load 2 (some 4) ⟨4, 0⟩,
                BInst.store 3 (some 8) ⟨4, 0⟩ 2]).substs)
          [0, 1, 2, 3, 4, 5, 6, 7, 0, 0, 0, 0] := by
  decide

/-! ## Claim C4 -/

/-- C4 counterexample: in the driver's trace for a one-block function, the
generic pipeline run does NOT precede the offset-map computation — the
pass manager is only executed after `GetOffsets` and the per-block loop. -/
theorem c4_counterexample :
    ¬ List.indexOf DriverEvent.runPipeline (OptimizeFunction [0])
        < List.indexOf DriverEvent.computeOffsets (OptimizeFunction [0]) := by
  decide

/-- C4 (amended): the per-function driver configures the generic pipeline
first but runs it LAST: the trace starts with the offset-map computation,
then optimizes each block, and the generic pipeline runs at the final
position, after the offset propagation and all block-local rewriting. -/
theorem c4_driver_order (blocks : List Nat) :
    (OptimizeFunction blocks)[0]? = some DriverEvent.computeOffsets
    ∧ (OptimizeFunction blocks)[blocks.length + 1]? = some DriverEvent.runPipeline
    ∧ (OptimizeFunction blocks).length = blocks.length + 2
    ∧ ∀ i b, (OptimizeFunction blocks)[i]? = some (DriverEvent.optimizeBlock b) →
        0 < i ∧ i < blocks.length + 1 := by
  refine ⟨by simp [OptimizeFunction], ?_, by simp [OptimizeFunction], ?_⟩
  · show (DriverEvent.computeOffsets :: (blocks.map DriverEvent.optimizeBlock
      ++ [DriverEvent.runPipeline]))[blocks.length + 1]? = some DriverEvent.runPipeline
    rw [List.getElem?_cons_succ,
      List.getElem?_append_right (by simp)]
    simp
  · intro i b h
    match i with
    | 0 => exact absurd h (by simp [OptimizeFunction])
    | j + 1 =>
      refine ⟨Nat.succ_pos j, ?_⟩
      rcases Nat.lt_or_ge j blocks.length with hj | hj
      · omega
      · exfalso
        simp only [OptimizeFunction, List.singleton_append,
          List.getElem?_cons_succ] at h
        rw [List.getElem?_append_right (by simpa using hj), List.length_cons,
          List.length_map, Nat.succ_sub_succ] at h
        rcases hk : j - blocks.length with _ | k <;> rw [hk] at h <;> simp at h

/-- C4 witness: the amended order at a concrete one-block function. -/
theorem c4_driver_order_witness :
    (OptimizeFunction [5])[0]? = some DriverEvent.computeOffsets
    ∧ (0 < 1 ∧ 1 < [5].length + 1) :=
  ⟨(c4_driver_order [5]).1, (c4_driver_order [5]).2.2.2 1 5 (by decide)⟩

/-! ## Claim C2 -/

/-- C2 counterexample: in a block with a partial-width store (2 bytes into
the 4-byte register 1) followed by a full-width store to the same register,
with no intervening read or call, the partial store (id 21) IS removed as a
dead store — the reverse scan meets the full store first and sets
`local_dead`, so the dead-store branch fires before the partial-write
branch is ever reached — and register 1 is NOT marked live-on-entry,
contrary to the claim. -/
theorem c2_counterexample :
    21 ∈ (processBlock (buildTables [8, 4])
        [BInst.store 21 (some 8) ⟨2, 0⟩ 10, BInst.store 22 (some 8) ⟨4, 0⟩ 11]).to_remove
    ∧ 1 ∉ (processBlock (buildTables [8, 4])
        [BInst.store 21 (some 8) ⟨2, 0⟩ 10, BInst.store 22 (some 8) ⟨4, 0⟩ 11]).state.live_on_entry := by
  decide

/-- C2 (amended): a partial-width store marks its register live-on-entry
and clears `local_dead` only when the register is not already locally dead
at that point of the reverse scan; in a block with a partial-width store to
register `r` followed by a full-width store to `r` with no intervening read
or call, the partial store is removed as a dead store, `r` is not marked
live-on-entry, and `r` is killed in the block. -/
theorem c2_partial_store_liveness (T : Tables) (id1 id2 o1 o2 v1 v2 r : Nat)
    (ty1 ty2 : Ty)
    (hr1 : tbl T.regOf o1 = r) (hr2 : tbl T.regOf o2 = r)
    (hp : ty1.size ≠ tbl T.regSize o1) (hf : ty2.size = tbl T.regSize o2) :
    ((processBlock T [BInst.store id1 (some o1) ty1 v1,
        BInst.store id2 (some o2) ty2 v2]).to_remove = [id1]
      ∧ r ∉ (processBlock T [BInst.store id1 (some o1) ty1 v1,
          BInst.store id2 (some o2) ty2 v2]).state.live_on_entry
      ∧ r ∈ (processBlock T [BInst.store id1 (some o1) ty1 v1,
          BInst.store id2 (some o2) ty2 v2]).state.killed_in_block)
    ∧ ∀ a : ScanAcc, r ∉ a.local_dead →
        (processInst T a (BInst.store id1 (some o1) ty1 v1)).state.live_on_entry
            = insert r a.state.live_on_entry
        ∧ r ∉ (processInst T a (BInst.store id1 (some o1) ty1 v1)).local_dead := by
  constructor
  · have hb : processBlock T [BInst.store id1 (some o1) ty1 v1,
        BInst.store id2 (some o2) ty2 v2]
        = processInst T (processInst T initAcc (BInst.store id2 (some o2) ty2 v2))
            (BInst.store id1 (some o1) ty1 v1) := rfl
    rw [hb, processInst_store_full T initAcc id2 o2 ty2 v2 (by simp [initAcc]) hf rfl,
      processInst_store_dead]
    · refine ⟨by simp [initAcc], ?_, ?_⟩ <;> simp [initAcc, hr2]
    · rw [hr1]; simp [initAcc, hr2]
  · intro a ha
    rw [processInst_store_partialWrite T a id1 o1 ty1 v1 (by rwa [hr1]) hp]
    constructor
    · simp [hr1]
    · simp [hr1, Finset.mem_erase]

/-- C2 witness: the amended theorem applied at a concrete block. -/
theorem c2_partial_store_liveness_witness :
    (processBlock (buildTables [8, 4])
        [BInst.store 21 (some 8) ⟨2, 0⟩ 10, BInst.store 22 (some 8) ⟨4, 0⟩ 11]).to_remove = [21]
    ∧ 1 ∉ (processBlock (buildTables [8, 4])
        [BInst.store 21 (some 8) ⟨2, 0⟩ 10, BInst.store 22 (some 8) ⟨4, 0⟩ 11]).state.live_on_entry :=
  ⟨(c2_partial_store_liveness (buildTables [8, 4]) 21 22 8 8 10 11 1 ⟨2, 0⟩ ⟨4, 0⟩
      (by decide) (by decide) (by decide) (by decide)).1.1,
   (c2_partial_store_liveness (buildTables [8, 4]) 21 22 8 8 10 11 1 ⟨2, 0⟩ ⟨4, 0⟩
      (by decide) (by decide) (by decide) (by decide)).1.2.1⟩

/-! ## Claim C3 -/

/-- C3 counterexample: for two sequential loads (ids 1 then 2) of the same
register with identical result type and no intervening store, the claim
says load 1 (the earlier) is removed and rewritten to reuse load 2's
result; the code instead retains load 1, removes load 2, and rewrites
load 2's uses to load 1's result. -/
theorem c3_counterexample :
    1 ∉ (processBlock (buildTables [8, 4])
        [BInst.load 1 (some 0) ⟨4, 0⟩, BInst.load 2 (some 0) ⟨4, 0⟩]).to_remove
    ∧ 2 ∈ (processBlock (buildTables [8, 4])
        [BInst.load 1 (some 0) ⟨4, 0⟩, BInst.load 2 (some 0) ⟨4, 0⟩]).to_remove
    ∧ (2, 1) ∈ (processBlock (buildTables [8, 4])
        [BInst.load 1 (some 0) ⟨4, 0⟩, BInst.load 2 (some 0) ⟨4, 0⟩]).substs := by
  decide

/-- C3 (amended): for two sequential loads of the same register with
identical result type and no intervening store or call, the LATER load (in
program order) is the one rewritten to reuse the EARLIER load's result and
removed, while the earlier load is retained. -/
theorem c3_load_forwarding_direction (T : Tables) (id1 id2 o1 o2 r : Nat) (ty : Ty)
    (hr1 : tbl T.regOf o1 = r) (hr2 : tbl T.regOf o2 = r) (hne : id1 ≠ id2) :
    (processBlock T [BInst.load id1 (some o1) ty, BInst.load id2 (some o2) ty]).to_remove = [id2]
    ∧ (processBlock T [BInst.load id1 (some o1) ty, BInst.load id2 (some o2) ty]).substs
        = [(id2, id1)]
    ∧ id1 ∉ (processBlock T [BInst.load id1 (some o1) ty,
        BInst.load id2 (some o2) ty]).to_remove := by
  have hb : processBlock T [BInst.load id1 (some o1) ty, BInst.load id2 (some o2) ty]
      = processInst T (processInst T initAcc (BInst.load id2 (some o2) ty))
          (BInst.load id1 (some o1) ty) := rfl
  have hpend : (processInst T initAcc (BInst.load id2 (some o2) ty)).load_forwarding
      (tbl T.regOf o1) = some (id2, ty) := by
    rw [processInst_load_nopending T initAcc id2 o2 ty rfl]
    simp [hr1, hr2]
  rw [hb, processInst_load_pending T
    (processInst T initAcc (BInst.load id2 (some o2) ty)) id1 o1 ty id2 hpend,
    processInst_load_nopending T initAcc id2 o2 ty rfl]
  exact ⟨by simp [initAcc], by simp [initAcc], by simp [initAcc, hne]⟩

/-- C3 witness: the amended theorem applied at a concrete block. -/
theorem c3_load_forwarding_direction_witness :
    (processBlock (buildTables [8, 4])
        [BInst.load 1 (some 0) ⟨4, 0⟩, BInst.load 2 (some 0) ⟨4, 0⟩]).to_remove = [2]
    ∧ (processBlock (buildTables [8, 4])
        [BInst.load 1 (some 0) ⟨4, 0⟩, BInst.load 2 (some 0) ⟨4, 0⟩]).substs = [(2, 1)] :=
  ⟨(c3_load_forwarding_direction (buildTables [8, 4]) 1 2 0 0 0 ⟨4, 0⟩
      (by decide) (by decide) (by decide)).1,
   (c3_load_forwarding_direction (buildTables [8, 4]) 1 2 0 0 0 ⟨4, 0⟩
      (by decide) (by decide) (by decide)).2.1⟩

/-! ## Claim C5 -/

/-- C5: on encountering a call during the reverse scan, the whole scan
state is cleared, so nothing computed from the instructions after the call
influences the treatment of the instructions before it: the persisted
`BlockState` of `pre ++ call :: post` equals that of `pre` alone, and the
removal and rewrite decisions are exactly those of `post` alone followed by
those of `pre` alone.  In particular, in a block with a load of a register,
a call, then another load of the same register, the second load is not
forwarded to the first and both loads are retained. -/
theorem c5_call_conservatism (T : Tables) (pre post : List BInst) (c : Nat) :
    ((processBlock T (pre ++ BInst.call c :: post)).state = (processBlock T pre).state
      ∧ (processBlock T (pre ++ BInst.call c :: post)).to_remove
          = (processBlock T post).to_remove ++ (processBlock T pre).to_remove
      ∧ (processBlock T (pre ++ BInst.call c :: post)).substs
          = (processBlock T post).substs ++ (processBlock T pre).substs)
    ∧ ((processBlock (buildTables [8, 4])
          [BInst.load 1 (some 0) ⟨4, 0⟩, BInst.call 9,
            BInst.load 2 (some 0) ⟨4, 0⟩]).to_remove = []
        ∧ (processBlock (buildTables [8, 4])
            [BInst.load 1 (some 0) ⟨4, 0⟩, BInst.call 9,
              BInst.load 2 (some 0) ⟨4, 0⟩]).substs = []) := by
  refine ⟨⟨?_, ?_, ?_⟩, by decide⟩ <;> rw [processBlock_call_split]

/-! ## Claim C10 -/

/-- C10: for a block whose first call splits it as `pre ++ call :: post`
(`pre` call-free), the persisted `BlockState` is exactly the one computed
from `pre` alone, which in turn depends only on the mapped loads and
stores of `pre`: everything contributed by accesses at or after the first
call is erased by the call-time reset during the reverse scan. -/
theorem c10_first_call_boundary (T : Tables) (pre post : List BInst) (c : Nat)
    (h : ∀ i ∈ pre, BInst.isCall i = false) :
    (processBlock T (pre ++ BInst.call c :: post)).state = (processBlock T pre).state
    ∧ (processBlock T pre).state
        = (processBlock T (pre.filter BInst.isMappedAccess)).state := by
  constructor
  · rw [processBlock_call_split]
  · unfold processBlock
    rw [← List.filter_reverse,
      foldl_filter_mapped T pre.reverse initAcc (fun i hi => h i (List.mem_reverse.mp hi))]

/-- C10 witness: concrete block with a call after a single mapped load. -/
theorem c10_first_call_boundary_witness :
    (processBlock (buildTables [8, 4])
        ([BInst.load 1 (some 0) ⟨4, 0⟩, BInst.otherB 7]
          ++ BInst.call 9 :: [BInst.store 3 (some 8) ⟨4, 0⟩ 1])).state
      = (processBlock (buildTables [8, 4])
          [BInst.load 1 (some 0) ⟨4, 0⟩, BInst.otherB 7]).state
    ∧ (processBlock (buildTables [8, 4])
        [BInst.load 1 (some 0) ⟨4, 0⟩, BInst.otherB 7]).state
      = (processBlock (buildTables [8, 4])
          ([BInst.load 1 (some 0) ⟨4, 0⟩, BInst.otherB 7].filter BInst.isMappedAccess)).state :=
  c10_first_call_boundary (buildTables [8, 4])
    [BInst.load 1 (some 0) ⟨4, 0⟩, BInst.otherB 7]
    [BInst.store 3 (some 8) ⟨4, 0⟩ 1] 9 (by decide)

end DeadRegElim


namespace DeadRegElim

/-! ## Lemmas about the offset propagation -/

/-- A lookup misses exactly when the key is absent. -/
lemma olookup_eq_none {m : OffMap} {v : Nat} :
    olookup m v = none ↔ v ∉ m.map Prod.fst := by
  unfold olookup
  rw [Option.map_eq_none', List.find?_eq_none]
  constructor
  · intro h hv
    rcases List.mem_map.mp hv with ⟨p, hp, hpv⟩
    exact h p hp (by rw [hpv]; exact beq_self_eq_true v)
  · intro h p hp hb
    exact h (List.mem_map.mpr ⟨p, hp, eq_of_beq hb⟩)

/-- Appending entries never changes the result of a successful lookup. -/
lemma olookup_append_of_some {m : OffMap} {v b : Nat}
    (h : olookup m v = some b) (l : OffMap) : olookup (m ++ l) v = some b := by
  unfold olookup at h ⊢
  rw [List.find?_append]
  cases hf : List.find? (fun p => p.1 == v) m with
  | none => rw [hf] at h; simp at h
  | some p => rw [hf] at h; simpa using h

/-- One step either leaves the map unchanged or appends exactly one entry,
keyed by the instruction's defined value, which was previously absent. -/
lemma stepOff_shape (m : OffMap) (i : OInst) :
    stepOff m i = m
    ∨ ∃ o, stepOff m i = m ++ [(i.defId, o)] ∧ olookup m i.defId = none := by
  unfold stepOff
  by_cases hg : (olookup m i.defId).isSome
  · rw [if_pos hg]; exact Or.inl rfl
  · rw [if_neg hg]
    have hn : olookup m i.defId = none := Option.not_isSome_iff_eq_none.mp hg
    cases i with
    | gep v base disp =>
      cases hb : olookup m base with
      | none => left; cases disp <;> simp [hb]
      | some b =>
        cases disp with
        | none => left; simp [hb]
        | some d => right; exact ⟨d + b, by simp [hb, OInst.defId], hn⟩
    | cast v base =>
      cases hb : olookup m base with
      | none => left; simp [hb]
      | some b => right; exact ⟨b, by simp [hb, OInst.defId], hn⟩
    | load v ptr =>
      cases hb : olookup m ptr with
      | none => left; simp [hb]
      | some b => right; exact ⟨b, by simp [hb, OInst.defId], hn⟩
    | store v ptr =>
      cases hb : olookup m ptr with
      | none => left; simp [hb]
      | some b => right; exact ⟨b, by simp [hb, OInst.defId], hn⟩
    | phi v isPtr incoming =>
      cases isPtr with
      | false => left; simp
      | true =>
        cases hb : incoming.findSome? (olookup m) with
        | none => left; simp [hb]
        | some b => right; exact ⟨b, by simp [hb, OInst.defId], hn⟩
    | otherI v => left; rfl

/-- A sweep only appends entries. -/
lemma foldl_stepOff_shape (l : List OInst) :
    ∀ m : OffMap, ∃ d, l.foldl stepOff m = m ++ d := by
  induction l with
  | nil => intro m; exact ⟨[], by simp⟩
  | cons i l ih =>
    intro m
    rcases stepOff_shape m i with h | ⟨o, h, _⟩
    · rcases ih (stepOff m i) with ⟨d, hd⟩
      exact ⟨d, by rw [List.foldl_cons, hd, h]⟩
    · rcases ih (stepOff m i) with ⟨d, hd⟩
      exact ⟨[(i.defId, o)] ++ d, by rw [List.foldl_cons, hd, h, List.append_assoc]⟩

/-- Established offsets survive a sweep unchanged. -/
lemma foldl_stepOff_mono (l : List OInst) {m : OffMap} {v b : Nat}
    (h : olookup m v = some b) : olookup (l.foldl stepOff m) v = some b := by
  rcases foldl_stepOff_shape l m with ⟨d, hd⟩
  rw [hd]; exact olookup_append_of_some h d

/-- Invariant of the propagation: keys are distinct and every key is either
the state-pointer argument or a value defined by some instruction. -/
def goodMap (argId : Nat) (insts : List OInst) (m : OffMap) : Prop :=
  (m.map Prod.fst).Nodup
  ∧ ∀ k ∈ m.map Prod.fst, k = argId ∨ k ∈ insts.map OInst.defId

/-- One step preserves the invariant. -/
lemma stepOff_goodMap (argId : Nat) (insts : List OInst) {m : OffMap}
    (i : OInst) (hi : i.defId ∈ insts.map OInst.defId)
    (h : goodMap argId insts m) : goodMap argId insts (stepOff m i) := by
  rcases stepOff_shape m i with hs | ⟨o, hs, hn⟩
  · rw [hs]; exact h
  · rw [hs]
    obtain ⟨hnd, hsub⟩ := h
    have hknot : i.defId ∉ m.map Prod.fst := olookup_eq_none.mp hn
    constructor
    · rw [List.map_append, List.nodup_append]
      refine ⟨hnd, List.nodup_singleton _, ?_⟩
      intro a ha hb
      simp at hb
      subst hb
      exact hknot ha
    · intro k hk
      rw [List.map_append] at hk
      rcases List.mem_append.mp hk with hk | hk
      · exact hsub k hk
      · simp at hk; subst hk; exact Or.inr hi

/-- A sweep preserves the invariant. -/
lemma foldl_stepOff_goodMap (argId : Nat) (insts : List OInst) :
    ∀ l : List OInst, (∀ i ∈ l, OInst.defId i ∈ insts.map OInst.defId) →
      ∀ m, goodMap argId insts m → goodMap argId insts (l.foldl stepOff m) := by
  intro l
  induction l with
  | nil => intro _ m h; exact h
  | cons i l ih =>
    intro hl m h
    simp only [List.foldl_cons]
    exact ih (fun j hj => hl j (List.mem_cons_of_mem i hj)) _
      (stepOff_goodMap argId insts i (hl i (List.mem_cons_self i l)) h)

/-- Under the invariant, the map has at most one entry per instruction plus
one for the state-pointer argument. -/
lemma goodMap_length (argId : Nat) (insts : List OInst) {m : OffMap}
    (h : goodMap argId insts m) : m.length ≤ insts.length + 1 := by
  obtain ⟨hnd, hsub⟩ := h
  have h1 : m.length = (m.map Prod.fst).length := (List.length_map m Prod.fst).symm
  have h2 : (m.map Prod.fst).toFinset.card = (m.map Prod.fst).length :=
    List.toFinset_card_of_nodup hnd
  have h3 : (m.map Prod.fst).toFinset ⊆ (argId :: insts.map OInst.defId).toFinset := by
    intro k hk
    rw [List.mem_toFinset] at hk ⊢
    rcases hsub k hk with hh | hh
    · rw [hh]; exact List.mem_cons_self _ _
    · exact List.mem_cons_of_mem _ hh
  have h4 := Finset.card_le_card h3
  have h5 := List.toFinset_card_le (argId :: insts.map OInst.defId)
  have h6 : (argId :: insts.map OInst.defId).length = insts.length + 1 := by simp
  omega

/-- A pass that changes the map strictly enlarges it. -/
lemma onePass_grow (insts : List OInst) (m : OffMap)
    (h : onePass insts m ≠ m) : m.length < (onePass insts m).length := by
  rcases foldl_stepOff_shape insts m with ⟨d, hd⟩
  unfold onePass at h ⊢
  rw [hd] at h ⊢
  cases d with
  | nil => simp at h
  | cons x d => simp

/-- The fixed-point loop preserves the invariant. -/
lemma iterFix_goodMap (argId : Nat) (insts : List OInst) :
    ∀ (fuel : Nat) (m : OffMap), goodMap argId insts m →
      goodMap argId insts (iterFix insts fuel m) := by
  intro fuel
  induction fuel with
  | zero => intro m h; exact h
  | succ fuel ih =>
    intro m h
    simp only [iterFix]
    by_cases he : onePass insts m = m
    · rw [if_pos he]; exact h
    · rw [if_neg he]
      exact ih _ (foldl_stepOff_goodMap argId insts insts
        (fun i hi => List.mem_map_of_mem _ hi) m h)

/-- With enough fuel, the loop reaches a genuine fixed point of `onePass`. -/
lemma iterFix_fix (argId : Nat) (insts : List OInst) :
    ∀ (fuel : Nat) (m : OffMap), goodMap argId insts m →
      insts.length + 2 ≤ fuel + m.length →
      onePass insts (iterFix insts fuel m) = iterFix insts fuel m := by
  intro fuel
  induction fuel with
  | zero =>
    intro m hg hlen
    have hb := goodMap_length argId insts hg
    exact absurd hlen (by omega)
  | succ fuel ih =>
    intro m hg hlen
    simp only [iterFix]
    by_cases he : onePass insts m = m
    · rw [if_pos he]; exact he
    · rw [if_neg he]
      have hgrow := onePass_grow insts m he
      exact ih _ (foldl_stepOff_goodMap argId insts insts
        (fun i hi => List.mem_map_of_mem _ hi) m hg) (by omega)

/-- The seed map satisfies the invariant. -/
lemma initMap_goodMap (argId : Nat) (insts : List OInst) :
    goodMap argId insts [(argId, 0)] := by
  constructor
  · simp
  · intro k hk; simp at hk; exact Or.inl hk

/-- The result of `getOffsets` is a map satisfying the invariant. -/
lemma getOffsets_goodMap (argId : Nat) (insts : List OInst) :
    goodMap argId insts (getOffsets argId insts) :=
  iterFix_goodMap argId insts _ _ (initMap_goodMap argId insts)

/-- The result of `getOffsets` is a fixed point of `onePass`. -/
lemma getOffsets_fixpoint (argId : Nat) (insts : List OInst) :
    onePass insts (getOffsets argId insts) = getOffsets argId insts := by
  unfold getOffsets
  exact iterFix_fix argId insts _ _ (initMap_goodMap argId insts) (by simp)

/-- Re-running any number of passes on a fixed point changes nothing. -/
lemma applyPasses_of_fix (insts : List OInst) {m : OffMap}
    (h : onePass insts m = m) : ∀ k, applyPasses insts k m = m := by
  intro k
  induction k with
  | zero => rfl
  | succ k ih =>
    show applyPasses insts k (onePass insts m) = m
    rw [h]; exact ih

end DeadRegElim

namespace DeadRegElim

/-- A struct-indexing instruction whose displacement is not provably
constant never assigns an offset. -/
lemma stepOff_gep_none (m : OffMap) (v b : Nat) :
    stepOff m (OInst.gep v b none) = m := by
  unfold stepOff
  by_cases hg : (olookup m (OInst.gep v b none).defId).isSome
  · rw [if_pos hg]
  · rw [if_neg hg]
    cases hb : olookup m b with
    | none => simp [hb]
    | some bb => simp [hb]

/-- If every instruction defining `v` is a constant-displacement failure,
one step keeps `v` unmapped. -/
lemma stepOff_keeps_none {m : OffMap} {v : Nat} (i : OInst)
    (hv : olookup m v = none)
    (hi : OInst.defId i = v → ∃ b, i = OInst.gep v b none) :
    olookup (stepOff m i) v = none := by
  by_cases hd : i.defId = v
  · obtain ⟨b, rfl⟩ := hi hd
    rw [stepOff_gep_none]; exact hv
  · rcases stepOff_shape m i with h | ⟨o, h, _⟩
    · rw [h]; exact hv
    · rw [h, olookup_eq_none, List.map_append]
      rw [olookup_eq_none] at hv
      intro hmem
      rcases List.mem_append.mp hmem with hm | hm
      · exact hv hm
      · simp at hm; exact hd hm.symm

/-- Sweeps keep `v` unmapped. -/
lemma foldl_keeps_none {v : Nat} : ∀ l : List OInst,
    (∀ i ∈ l, OInst.defId i = v → ∃ b, i = OInst.gep v b none) →
    ∀ m, olookup m v = none → olookup (l.foldl stepOff m) v = none := by
  intro l
  induction l with
  | nil => intro _ m h; exact h
  | cons i l ih =>
    intro hl m h
    simp only [List.foldl_cons]
    exact ih (fun j hj => hl j (List.mem_cons_of_mem i hj)) _
      (stepOff_keeps_none i h (hl i (List.mem_cons_self i l)))

/-- The fixed-point loop keeps `v` unmapped. -/
lemma iterFix_keeps_none (insts : List OInst) {v : Nat}
    (hall : ∀ i ∈ insts, OInst.defId i = v → ∃ b, i = OInst.gep v b none) :
    ∀ (fuel : Nat) (m : OffMap), olookup m v = none →
      olookup (iterFix insts fuel m) v = none := by
  intro fuel
  induction fuel with
  | zero => intro m h; exact h
  | succ fuel ih =>
    intro m h
    simp only [iterFix]
    by_cases he : onePass insts m = m
    · rw [if_pos he]; exact h
    · rw [if_neg he]
      exact ih _ (foldl_keeps_none insts hall m h)

/-- Iterated passes keep `v` unmapped. -/
lemma applyPasses_keeps_none (insts : List OInst) {v : Nat}
    (hall : ∀ i ∈ insts, OInst.defId i = v → ∃ b, i = OInst.gep v b none) :
    ∀ (k : Nat) (m : OffMap), olookup m v = none →
      olookup (applyPasses insts k m) v = none := by
  intro k
  induction k with
  | zero => intro m h; exact h
  | succ k ih =>
    intro m h
    show olookup (applyPasses insts k (onePass insts m)) v = none
    exact ih _ (foldl_keeps_none insts hall m h)

/-! ## Claim C6 -/

/-- C6: the Offset Map only grows: a pass never changes or removes an
established entry; re-running propagation on the fixed point returned by
`GetOffsets` changes nothing; and undeterminable values are simply absent
from the map (a lookup misses exactly when the key is absent — there is no
"unknown" placeholder value). -/
theorem c6_offset_map_monotone (argId : Nat) (insts : List OInst) :
    (∀ (m : OffMap) (v b : Nat), olookup m v = some b →
        olookup (onePass insts m) v = some b)
    ∧ (∀ k, applyPasses insts k (getOffsets argId insts) = getOffsets argId insts)
    ∧ (∀ v, olookup (getOffsets argId insts) v = none ↔
        v ∉ (getOffsets argId insts).map Prod.fst) := by
  refine ⟨?_, ?_, ?_⟩
  · intro m v b h
    exact foldl_stepOff_mono insts h
  · exact applyPasses_of_fix insts (getOffsets_fixpoint argId insts)
  · intro v
    exact olookup_eq_none

/-- C6 witness: monotonicity and rerun-stability at a concrete function. -/
theorem c6_offset_map_monotone_witness :
    olookup (onePass [OInst.load 2 1] [(1, 0)]) 1 = some 0
    ∧ applyPasses [OInst.load 2 1] 3 (getOffsets 1 [OInst.load 2 1])
        = getOffsets 1 [OInst.load 2 1] :=
  ⟨(c6_offset_map_monotone 1 [OInst.load 2 1]).1 [(1, 0)] 1 0 (by decide),
   (c6_offset_map_monotone 1 [OInst.load 2 1]).2.1 3⟩

/-! ## Claim C7 -/

/-- C7: a struct-indexing instruction whose base has a known offset and
whose displacement is the constant `d` is assigned `d` plus the base's
offset; one whose displacement is not provably constant is left unmapped
permanently — no number of further passes, nor the full `GetOffsets`
fixed point, ever maps it (provided all definitions of that value are such
failed struct-indexings and it is not the state-pointer argument). -/
theorem c7_gep_constant_displacement (insts : List OInst) (argId v base : Nat) :
    (∀ (m : OffMap) (d b : Nat), olookup m base = some b → olookup m v = none →
        olookup (stepOff m (OInst.gep v base (some d))) v = some (d + b))
    ∧ ((∀ i ∈ insts, OInst.defId i = v → ∃ bb, i = OInst.gep v bb none) →
        v ≠ argId →
        (∀ k, olookup (applyPasses insts k [(argId, 0)]) v = none)
        ∧ olookup (getOffsets argId insts) v = none) := by
  constructor
  · intro m d b hb hv
    have hstep : stepOff m (OInst.gep v base (some d)) = m ++ [(v, d + b)] := by
      unfold stepOff
      rw [if_neg (by simp [OInst.defId, hv])]
      simp [hb]
    rw [hstep]
    unfold olookup at hv ⊢
    rw [List.find?_append]
    have hfm : List.find? (fun p => p.1 == v) m = none := by
      cases hf : List.find? (fun p => p.1 == v) m with
      | none => rfl
      | some p => rw [hf] at hv; simp at hv
    rw [hfm]
    simp
  · intro hall hne
    have hinit : olookup [(argId, 0)] v = none := by
      rw [olookup_eq_none]
      simp [hne]
    exact ⟨fun k => applyPasses_keeps_none insts hall k _ hinit,
      iterFix_keeps_none insts hall _ _ hinit⟩

/-- C7 witness: both parts at concrete inputs. -/
theorem c7_gep_constant_displacement_witness :
    olookup (stepOff [(0, 0)] (OInst.gep 5 0 (some 4))) 5 = some 4
    ∧ olookup (getOffsets 0 [OInst.gep 5 0 none]) 5 = none :=
  ⟨by
    have h := (c7_gep_constant_displacement [OInst.gep 5 0 none] 0 5 0).1
      [(0, 0)] 4 0 (by decide) (by decide)
    simpa using h,
   ((c7_gep_constant_displacement [OInst.gep 5 0 none] 0 5 0).2
      (by
        intro i hi hd
        rw [List.mem_singleton] at hi
        subst hi
        exact ⟨0, rfl⟩)
      (by decide)).2⟩

/-! ## Claim C8 -/

/-- C8: the repeat-until-no-progress loop of `GetOffsets` terminates: the
fuelled loop reaches a genuine fixed point of `onePass` (running one more
full pass changes nothing), the resulting map has at most one entry per
instruction plus one for the state-pointer argument, and every pass either
is a fixed point (the last pass) or strictly enlarges the map. -/
theorem c8_propagation_terminates (argId : Nat) (insts : List OInst) :
    onePass insts (getOffsets argId insts) = getOffsets argId insts
    ∧ (getOffsets argId insts).length ≤ insts.length + 1
    ∧ ∀ m : OffMap, onePass insts m = m ∨ m.length < (onePass insts m).length := by
  refine ⟨getOffsets_fixpoint argId insts, ?_, ?_⟩
  · exact goodMap_length argId insts (getOffsets_goodMap argId insts)
  · intro m
    by_cases he : onePass insts m = m
    · exact Or.inl he
    · exact Or.inr (onePass_grow insts m he)

end DeadRegElim

namespace DeadRegElim

/-! ## Lemmas for the checked eliminator -/

/-- The mapped offset of a block instruction, if any. -/
def BInst.mappedOff : BInst → Option Nat
  | .load _ off _ => off
  | .store _ off _ _ => off
  | .mappedO _ off => some off
  | _ => none

/-- The predicate `offInBounds` bounds the mapped offset. -/
lemma offInBounds_spec {n : Nat} {i : BInst} (h : offInBounds n i = true)
    {o : Nat} (ho : BInst.mappedOff i = some o) : o < n := by
  cases i with
  | mappedO id o' =>
    simp [BInst.mappedOff] at ho
    subst ho
    simpa [offInBounds] using h
  | load id off ty =>
    cases off with
    | none => simp [BInst.mappedOff] at ho
    | some o' =>
      simp [BInst.mappedOff] at ho
      subst ho
      simpa [offInBounds] using h
  | store id off ty v =>
    cases off with
    | none => simp [BInst.mappedOff] at ho
    | some o' =>
      simp [BInst.mappedOff] at ho
      subst ho
      simpa [offInBounds] using h
  | call c => simp [BInst.mappedOff] at ho
  | otherB c => simp [BInst.mappedOff] at ho

/-- The per-byte tables have one entry for every byte of the structure. -/
lemma buildTablesAux_lengths :
    ∀ (fields : List Nat) (r t : Nat),
      (buildTablesAux fields r t).regOf.length = fields.sum
      ∧ (buildTablesAux fields r t).regSize.length = fields.sum := by
  intro fields
  induction fields with
  | nil => intro r t; exact ⟨rfl, rfl⟩
  | cons s rest ih =>
    intro r t
    simp only [buildTablesAux, List.length_append, List.length_replicate,
      List.sum_cons]
    exact ⟨by rw [(ih (r + 1) (t + s)).1], by rw [(ih (r + 1) (t + s)).2]⟩

/-- All register ids in the table are below the running id plus the number
of remaining fields. -/
lemma buildTablesAux_regOf_lt :
    ∀ (fields : List Nat) (r t : Nat),
      ∀ x ∈ (buildTablesAux fields r t).regOf, x < r + fields.length := by
  intro fields
  induction fields with
  | nil => intro r t x hx; simp [buildTablesAux] at hx
  | cons s rest ih =>
    intro r t x hx
    simp only [buildTablesAux, List.mem_append] at hx
    rcases hx with hx | hx
    · have hxe := List.eq_of_mem_replicate hx
      subst hxe
      simp only [List.length_cons]
      omega
    · have := ih (r + 1) (t + s) x hx
      simp only [List.length_cons]
      omega

/-- In-bounds lookups in the built table produce register ids below the
field count. -/
lemma buildTables_reg_lt (fields : List Nat) (o : Nat)
    (h : o < (buildTables fields).regOf.length) :
    tbl (buildTables fields).regOf o < fields.length := by
  have hmem : (buildTables fields).regOf.getD o 0 ∈ (buildTables fields).regOf := by
    rw [List.getD_eq_getElem _ _ h]
    exact List.getElem_mem h
  have := buildTablesAux_regOf_lt fields 0 0 _ hmem
  unfold tbl
  unfold buildTables at *
  omega

/-- Under the bounds precondition, one checked step agrees with the
unchecked step. -/
lemma processInstC_eq (T : Tables) (a : ScanAcc) (i : BInst)
    (h : ∀ o, BInst.mappedOff i = some o →
      o < T.regOf.length ∧ o < T.regSize.length ∧ tbl T.regOf o < 128) :
    processInstC T a i = some (processInst T a i) := by
  cases i with
  | call c => rfl
  | otherB c => rfl
  | mappedO c o =>
    obtain ⟨h1, h2, h3⟩ := h o rfl
    have g1 : T.regOf[o]? = some (tbl T.regOf o) := by
      rw [List.getElem?_eq_getElem h1]
      unfold tbl
      rw [List.getD_eq_getElem _ _ h1]
    have g2 : T.regSize[o]? = some (tbl T.regSize o) := by
      rw [List.getElem?_eq_getElem h2]
      unfold tbl
      rw [List.getD_eq_getElem _ _ h2]
    simp [processInstC, processInst, g1, g2]
  | load id off ty =>
    cases off with
    | none => rfl
    | some o =>
      obtain ⟨h1, h2, h3⟩ := h o rfl
      have g1 : T.regOf[o]? = some (tbl T.regOf o) := by
        rw [List.getElem?_eq_getElem h1]
        unfold tbl
        rw [List.getD_eq_getElem _ _ h1]
      have g2 : T.regSize[o]? = some (tbl T.regSize o) := by
        rw [List.getElem?_eq_getElem h2]
        unfold tbl
        rw [List.getD_eq_getElem _ _ h2]
      simp [processInstC, processInst, g1, g2, h3]
  | store id off ty v =>
    cases off with
    | none => rfl
    | some o =>
      obtain ⟨h1, h2, h3⟩ := h o rfl
      have g1 : T.regOf[o]? = some (tbl T.regOf o) := by
        rw [List.getElem?_eq_getElem h1]
        unfold tbl
        rw [List.getD_eq_getElem _ _ h1]
      have g2 : T.regSize[o]? = some (tbl T.regSize o) := by
        rw [List.getElem?_eq_getElem h2]
        unfold tbl
        rw [List.getD_eq_getElem _ _ h2]
      simp [processInstC, processInst, g1, g2, h3]

/-- Under the bounds precondition, the checked traversal agrees with the
unchecked traversal. -/
lemma foldlM_processInstC (T : Tables) :
    ∀ l : List BInst,
      (∀ i ∈ l, ∀ o, BInst.mappedOff i = some o →
        o < T.regOf.length ∧ o < T.regSize.length ∧ tbl T.regOf o < 128) →
      ∀ a : ScanAcc, l.foldlM (processInstC T) a = some (l.foldl (processInst T) a) := by
  intro l
  induction l with
  | nil => intro _ a; rfl
  | cons i l ih =>
    intro h a
    rw [List.foldlM_cons, processInstC_eq T a i (h i (List.mem_cons_self i l)),
      List.foldl_cons]
    show l.foldlM (processInstC T) (processInst T a i)
        = some (l.foldl (processInst T) (processInst T a i))
    exact ih (fun j hj => h j (List.mem_cons_of_mem i hj)) (processInst T a i)

/-! ## Claim C9 -/

/-- C9 counterexample: the eliminator does not index all THREE layout
tables.  On a block containing a mapped non-access instruction, a mapped
load and a mapped store, the checked eliminator — which fails exactly when
an indexed table access is out of range — still succeeds when the third
table (`gByteOffsetToBeginOffset`) is replaced by the empty list, although
the genuine third table is non-empty and every index into an empty list is
out of range; by contrast, emptying the first table
(`gByteOffsetToRegOffset`) makes it fail at once.  So the eliminator
indexes the first table but never the third. -/
theorem c9_counterexample :
    ((processBlockC ⟨(buildTables [8, 4]).regOf, [], (buildTables [8, 4]).regSize⟩
        [BInst.mappedO 5 0, BInst.load 1 (some 0) ⟨4, 0⟩,
          BInst.store 3 (some 8) ⟨4, 0⟩ 1]).map
        (fun a => (a.state, a.to_remove, a.substs))
      = some (⟨{0}, {1}⟩, [], []))
    ∧ (buildTables [8, 4]).beginOf ≠ []
    ∧ (processBlockC ⟨[], (buildTables [8, 4]).beginOf, (buildTables [8, 4]).regSize⟩
        [BInst.mappedO 5 0, BInst.load 1 (some 0) ⟨4, 0⟩,
          BInst.store 3 (some 8) ⟨4, 0⟩ 1]).isNone = true := by
  decide

/-- C9 (amended): `LocalOptimizeBlock` indexes TWO of the three global
layout tables — `gByteOffsetToRegOffset` and `gByteOffsetToRegSize` — with
the mapped offset of EVERY instruction present in the Offset Map (loads,
stores, and mapped GEPs/bitcasts/phis alike), and uses the resulting
register id in the fixed 128-bit register sets for mapped loads and stores,
with no bounds check anywhere; the third table,
`gByteOffsetToBeginOffset`, is built but never read.  Under the
precondition that every offset in the Offset Map is strictly below the
register-state structure's total byte size (the sum of the field store
sizes, which is the length of the per-byte tables) and that the structure
has at most 128 fields (so every register id is strictly below the bit-set
capacity 128), every lookup and bit-set operation of the checked
eliminator is in range and it computes exactly the unchecked result. -/
theorem c9_eliminator_bounds (fields : List Nat) (insts : List BInst)
    (hoff : ∀ i ∈ insts, offInBounds fields.sum i = true)
    (hreg : fields.length ≤ 128) :
    processBlockC (buildTables fields) insts
      = some (processBlock (buildTables fields) insts) := by
  unfold processBlockC processBlock
  apply foldlM_processInstC
  intro i hi o ho
  have hi' : i ∈ insts := List.mem_reverse.mp hi
  have hsum : o < fields.sum := offInBounds_spec (hoff i hi') ho
  have hlen1 : (buildTables fields).regOf.length = fields.sum :=
    (buildTablesAux_lengths fields 0 0).1
  have hlen2 : (buildTables fields).regSize.length = fields.sum :=
    (buildTablesAux_lengths fields 0 0).2
  refine ⟨by omega, by omega, ?_⟩
  have := buildTables_reg_lt fields o (by omega)
  omega

/-- C9 witness: the checked eliminator succeeds on a concrete in-bounds
block that contains a mapped non-access instruction as well as a load and
a store. -/
theorem c9_eliminator_bounds_witness :
    processBlockC (buildTables [8, 4])
        [BInst.mappedO 5 4, BInst.load 1 (some 0) ⟨4, 0⟩,
          BInst.store 3 (some 8) ⟨4, 0⟩ 1]
      = some (processBlock (buildTables [8, 4])
          [BInst.mappedO 5 4, BInst.load 1 (some 0) ⟨4, 0⟩,
            BInst.store 3 (some 8) ⟨4, 0⟩ 1]) :=
  c9_eliminator_bounds [8, 4]
    [BInst.mappedO 5 4, BInst.load 1 (some 0) ⟨4, 0⟩,
      BInst.store 3 (some 8) ⟨4, 0⟩ 1]
    (by decide) (by decide)

end DeadRegElim
